import Mathlib

/-!
Shallow embedding of the INDI control-plane client core:
the device-tree reducer, the connection lifecycle, the wait engine,
the listener dispatch, and the command sequencer operations
(setParam, pulseParam) together with the notification uid generator.

Sources embedded here:
* `Indi.ts` (`src/unnamed/part_002`): classes `Vector`, `Device`,
  `IndiConnection` (the reducer `onMessage`, `checkListeners`,
  `removeListener`, `wait`, the socket `connect`/`close` handlers,
  `queueMessage`/`flushQueue`).
* `IndiManager.ts`: `nextMessageUid`, `refreshStatus`, `setParam`,
  `pulseParam`.

JavaScript objects used as string-keyed dictionaries are embedded as
association lists (`List (String × α)`) with first-match lookup;
`setKey` models `obj[k] = v` (replace the binding if the key is
present, append otherwise) and `eraseKey` models `delete obj[k]`.
-/

namespace Indi

/-- Models `obj[k] = v` on a JavaScript object embedded as an
association list: replaces the first binding of `k`, or appends a new
binding when `k` is absent. -/
def setKey {α : Type} (m : List (String × α)) (k : String) (v : α) : List (String × α) :=
  match m with
  | [] => [(k, v)]
  | (k', v') :: rest => if k' = k then (k, v) :: rest else (k', v') :: setKey rest k v

/-- Models `delete obj[k]`: removes the first binding of `k`. -/
def eraseKey {α : Type} (m : List (String × α)) (k : String) : List (String × α) :=
  match m with
  | [] => []
  | (k', v') :: rest => if k' = k then rest else (k', v') :: eraseKey rest k

/-- Keys of an association list, in order. -/
def keysOf {α : Type} (m : List (String × α)) : List String := m.map Prod.fst

/-- A single child property of a vector (`defText`/`defNumber`/... node):
`$name`, optional `$label`, and the text value `$_`. -/
structure IndiProperty where
  name : String
  label : Option String
  value : String
deriving Repr, DecidableEq

/-- A child element of a `def*Vector` message. -/
structure DefChild where
  name : String
  label : Option String
  value : String
deriving Repr, DecidableEq

/-- A vector definition as stored in `deviceTree` by `onMessage`:
the decoded `def*Vector` message enriched with `$type`, `childs`
(indexed by name), `childNames` and `$rev`. -/
structure VectorDef where
  vtype : String
  state : String
  timeoutAttr : Option String
  timestampAttr : Option String
  text : Option String
  rev : Nat
  childs : List (String × IndiProperty)
  childNames : List String
deriving Repr, DecidableEq

/-- One device entry of the tree: vector name to definition. -/
abbrev DeviceVectors := List (String × VectorDef)

/-- The device tree: device name to its vectors. -/
abbrev DeviceTree := List (String × DeviceVectors)

/-- A decoded inbound wire message, after the schema-driven XML
parser: `def*Vector`, `set*Vector`, `delProperty` (vector- or
device-scoped) or a broadcast `message` note. For a `set*Vector` the
`updates` field is the `one<Kind>` array; it is `none` when the
element carried no such children (the `Wrong oneKind` path of
`onMessage`), and each update value is `none` when the `$_` text was
absent. -/
inductive InMessage where
  | defVector (vtype device name : String) (state : String)
      (timeoutAttr : Option String) (timestampAttr : Option String)
      (text : Option String) (children : List DefChild)
  | setVector (vtype device name : String) (state : String)
      (timeoutAttr : Option String) (timestampAttr : Option String)
      (text : Option String) (updates : Option (List (String × Option String)))
  | delProperty (device : String) (name : Option String)
  | note (device : String) (text : Option String)
deriving Repr, DecidableEq

/-- An outgoing `new<Kind>Vector` command built by `Vector.setValues`,
kept structured instead of as its XML rendering. -/
structure IndiCommand where
  vtype : String
  device : String
  name : String
  affectations : List (String × String)
deriving Repr, DecidableEq

/-- The observable state of one `IndiConnection`: the global revision
counter `globalRevisionId`, the device tree, the `connected` and
`dead` flags, the outgoing queue, and the commands already written to
the socket (`sent`, so that `sent ++ queue` is everything ever
queued). -/
structure ConnState where
  rev : Nat
  tree : DeviceTree
  connected : Bool
  dead : Bool
  queue : List IndiCommand
  sent : List IndiCommand
deriving Repr, DecidableEq

/-- The state right after `new IndiConnection()`. -/
def initConn : ConnState :=
  { rev := 0, tree := [], connected := false, dead := false, queue := [], sent := [] }

/-- Models `flushQueue`: a no-op while disconnected, otherwise writes
every queued command to the socket in order. -/
def flushQueue (st : ConnState) : ConnState :=
  if st.connected then { st with queue := [], sent := st.sent ++ st.queue } else st

/-- Models `queueMessage`: push the command then attempt a flush. -/
def queueMessage (st : ConnState) (c : IndiCommand) : ConnState :=
  flushQueue { st with queue := st.queue ++ [c] }

/-- Builds the `childs` index of a `def*Vector` message: the source
loop `childs[child.$name] = child` (later duplicates overwrite). -/
def buildChilds (cs : List DefChild) : List (String × IndiProperty) :=
  cs.foldl (fun m c => setKey m c.name ⟨c.name, c.label, c.value⟩) []

/-- Applies the `one<Kind>` update list of a `set*Vector` message to
the stored `childs`: unknown child names are skipped with a warning
(`continue`), a missing `$_` text defaults to the empty string. -/
def applyUpdates (childs : List (String × IndiProperty))
    (ups : List (String × Option String)) : List (String × IndiProperty) :=
  ups.foldl (fun cs u =>
    match cs.lookup u.1 with
    | none => cs
    | some p => setKey cs u.1 { p with value := u.2.getD "" }) childs

/-- Models `getDeviceInTree` as used by the `def` branch: the device
entry, auto-created empty when absent. -/
def devEntry (tree : DeviceTree) (dev : String) : DeviceVectors :=
  (tree.lookup dev).getD []

/-- The reducer `IndiConnection.onMessage`, one call per decoded
message. Returns the new state together with a flag telling whether
the message reached the final `checkListeners()` call (broadcast
notes, deletions and updates about unknown targets, and `set*Vector`
messages without their `one<Kind>` array all `return` early and so
do not trigger a listener dispatch pass). `globalRevisionId` is
incremented first, unconditionally. -/
def onMessage (st : ConnState) (m : InMessage) : ConnState × Bool :=
  let st := { st with rev := st.rev + 1 }
  match m with
  | .note _ _ =>
      -- dispatchMessage(message); return
      (st, false)
  | .defVector vtype dev name state timeoutAttr timestampAttr text children =>
      let vd : VectorDef :=
        { vtype := vtype, state := state, timeoutAttr := timeoutAttr,
          timestampAttr := timestampAttr, text := text, rev := st.rev,
          childs := buildChilds children, childNames := children.map (·.name) }
      ({ st with tree := setKey st.tree dev (setKey (devEntry st.tree dev) name vd) }, true)
  | .delProperty dev nameOpt =>
      match st.tree.lookup dev with
      | none => (st, false)  -- Message about unknown device: log, return
      | some dmap =>
        match nameOpt with
        | some name =>
            match dmap.lookup name with
            | none => (st, false)  -- Message about unknown vector: log, return
            | some _ => ({ st with tree := setKey st.tree dev (eraseKey dmap name) }, true)
        | none => ({ st with tree := eraseKey st.tree dev }, true)
  | .setVector _ dev name state timeoutAttr timestampAttr text updates =>
      match st.tree.lookup dev with
      | none => (st, false)  -- Received set for unknown device: warn, return
      | some dmap =>
        match dmap.lookup name with
        | none => (st, false)  -- Received set for unknown property: warn, return
        | some vd =>
          let vd :=
            { vd with state := state,
                      timeoutAttr := some (timeoutAttr.getD "0"),
                      timestampAttr := timestampAttr,
                      rev := st.rev,
                      text := match text with | some t => some t | none => vd.text }
          match updates with
          | none =>
              -- Wrong one<Kind>: warn, return (state already overwritten)
              ({ st with tree := setKey st.tree dev (setKey dmap name vd) }, false)
          | some ups =>
              let vd := { vd with childs := applyUpdates vd.childs ups }
              ({ st with tree := setKey st.tree dev (setKey dmap name vd) }, true)

/-- Connection-level events on the sequential timeline: the socket
`connect` handler, the socket `close` handler, and one decoded
message fed to `onMessage`. -/
inductive ConnEvent where
  | connectEv
  | closeEv
  | msgEv (m : InMessage)
deriving Repr, DecidableEq

/-- One event step. `connect`: set `connected`, send the discovery
request, flush the queue, then `++globalRevisionId`. `close`:
`++globalRevisionId`, drop socket state, clear the queue, mark dead,
then `checkListeners()` (the tree is NOT touched by the close handler
itself). A message goes through `onMessage`. -/
def stepEvent (st : ConnState) : ConnEvent → ConnState
  | .connectEv => let st := flushQueue { st with connected := true }
                  { st with rev := st.rev + 1 }
  | .closeEv => { st with rev := st.rev + 1, connected := false, queue := [], dead := true }
  | .msgEv m => (onMessage st m).1

/-- Fold a list of messages through the reducer from the initial
connection state. -/
def processMsgs (ms : List InMessage) : ConnState :=
  ms.foldl (fun st m => (onMessage st m).1) initConn

/-! Property model: the `Vector` facade re-resolves against the live
tree on every call. -/

/-- Models `Vector.getVectorInTree`: `null` when the device or the
vector is absent. -/
def getVectorInTree (st : ConnState) (device vectorId : String) : Option VectorDef :=
  match st.tree.lookup device with
  | none => none
  | some dmap => dmap.lookup vectorId

/-- Models `Vector.getPropertyValueIfExists`: the child value, or
`none` when the vector or the child is absent. -/
def getPropertyValueIfExists (st : ConnState) (device vectorId name : String) :
    Option String :=
  match getVectorInTree st device vectorId with
  | none => none
  | some vd =>
    match vd.childs.lookup name with
    | none => none
    | some p => some p.value

/-- Models `Vector.setValues(affectations)`. The source first calls
`getExistingVectorInTree()` (which throws `Property not found` when
the vector is absent), then builds the `new<Kind>Vector` command,
marks the local vector copy `Busy`, and queues the command. The
returned `Option String` is the thrown error message (`none` on
success); since the lookup precedes every mutation, the state is
returned unchanged on the throwing path. -/
def setValuesRun (st : ConnState) (device vectorId : String)
    (affectations : List (String × String)) : Option String × ConnState :=
  match getVectorInTree st device vectorId with
  | none => (some ("Property not found: " ++ device ++ "/" ++ vectorId), st)
  | some vd =>
      let cmd : IndiCommand :=
        { vtype := vd.vtype, device := device, name := vectorId,
          affectations := affectations }
      let vd := { vd with state := "Busy" }
      let st :=
        { st with tree := (setKey st.tree device
            (setKey (devEntry st.tree device) vectorId vd)) }
      (none, queueMessage st cmd)

/-- Every command ever issued on this connection, in order. -/
def issuedCommands (st : ConnState) : List IndiCommand := st.sent ++ st.queue

/-! Wait engine (`IndiConnection.wait`). A predicate evaluation can
return false, return a truthy result, or throw; the registered
listener reacts to exactly these three cases. -/

/-- Outcome of one predicate evaluation inside `wait`. -/
inductive PredEval where
  | isFalse
  | isTrue
  | throws (e : String)
deriving Repr, DecidableEq

/-- What `wait` does at registration time, before any listener is
added: fail immediately when the connection is dead (unless
`allowDisconnectionState`), resolve immediately when the predicate is
already true, otherwise register a listener. -/
inductive WaitStart where
  | failDisconnected
  | immediate
  | registered
deriving Repr, DecidableEq

/-- Models the registration phase of `IndiConnection.wait`. -/
def waitStart (st : ConnState) (allowDisconnectionState : Bool)
    (predNow : Bool) : WaitStart :=
  if st.dead && !allowDisconnectionState then .failDisconnected
  else if predNow then .immediate
  else .registered

/-- How a pending (registered) wait settles when its listener runs. -/
inductive WaitSettle where
  | stillWaiting
  | resolved
  | failed (e : String)
deriving Repr, DecidableEq

/-- Models the listener installed by `wait` for a pending predicate:
it only re-evaluates the predicate — a false result keeps waiting,
a truthy result resolves, a thrown error rejects. The `dead` flag is
never consulted here. -/
def waitListenerStep (ev : PredEval) : WaitSettle :=
  match ev with
  | .isFalse => .stillWaiting
  | .isTrue => .resolved
  | .throws e => .failed e

/-- A pending wait observed right after the socket `close` handler
ran: the listener dispatch re-evaluates the (non-throwing) predicate
on the post-close state. -/
def pendingWaitAfterClose (st : ConnState) (pred : ConnState → Bool) : WaitSettle :=
  let st := stepEvent st .closeEv
  waitListenerStep (if pred st then .isTrue else .isFalse)

/-- Models `IndiManager.refreshStatus` (the manager listener invoked
on every dispatch pass): given whether `this.connection` is set and
whether it is connected, produce the published status and the new
shared device tree (`clear` empties it in the two offline cases). -/
def refreshStatusRun (hasConnection connected : Bool) (tree : DeviceTree) :
    String × DeviceTree :=
  if !hasConnection then ("error", [])
  else if !connected then ("connecting", [])
  else ("connected", tree)

/-! Listener dispatch (`checkListeners` / `removeListener`).
Listeners are identified by numbers (function identity in the
source); a listener's behaviour during its invocation is abstracted
as the ordered list of listeners it removes. -/

/-- Models `Array.prototype.splice` removal of the first `===` match,
as done by `removeListener` on each of its two arrays. -/
def removeFirst (l : List Nat) (x : Nat) : List Nat :=
  match l with
  | [] => []
  | y :: rest => if y = x then rest else y :: removeFirst rest x

/-- The two listener arrays of `IndiConnection` during a dispatch
pass: the live `listeners` registry and the `checkingListeners`
work list of the pass. -/
structure ListenerSys where
  listeners : List Nat
  checking : List Nat
deriving Repr, DecidableEq

/-- Models `removeListener(f)` while a pass is running: splice the
first match out of `listeners` AND out of `checkingListeners`. -/
def removeListenerRun (s : ListenerSys) (x : Nat) : ListenerSys :=
  { listeners := removeFirst s.listeners x,
    checking := removeFirst s.checking x }

/-- The `while` loop body of `checkListeners`: repeatedly take the
LAST entry of `checkingListeners`, splice it out, invoke it (here:
apply its removals in order), until the work list is empty. The loop
always terminates because every iteration shortens the work list, so
running it with `fuel` at least the initial work-list length is
exact; the returned list is the invocation log in order. -/
def runPassAux (act : Nat → List Nat) : Nat → ListenerSys → List Nat
  | 0, _ => []
  | fuel + 1, s =>
    match s.checking.getLast? with
    | none => []
    | some todo =>
      let s := { s with checking := s.checking.dropLast }
      let s := (act todo).foldl removeListenerRun s
      todo :: runPassAux act fuel s

/-- Models one full `checkListeners` dispatch pass: snapshot
`checkingListeners = listeners.slice()`, then drain. `act i` is the
list of listeners that listener `i` removes when invoked. -/
def checkListenersRun (act : Nat → List Nat) (listeners : List Nat) : List Nat :=
  runPassAux act listeners.length { listeners := listeners, checking := listeners }

/-! Command sequencer: `setParam` steps (e)-(g) and the `pulseParam`
control flow. -/

/-- Boolean string order used to model `Array.prototype.sort()` on
`Object.keys` (both orders agree on these ASCII keys). -/
def strLeb (a b : String) : Bool := decide (a ≤ b)

/-- Models `Object.keys(value).sort()`. -/
def sortedKeys (value : List (String × Option String)) : List String :=
  (value.map Prod.fst).mergeSort strLeb

/-- The loop body of the `setParam` diff, as the optional entry it
pushes for one key: skip a `null`/`undefined` value, keep `{name:
key, value: v}` when `force` is set or the provided value differs
from `getPropertyValueIfExists` on the current vector. -/
def setParamPick (st : ConnState) (devId vectorId : String) (force : Bool)
    (value : List (String × Option String)) (key : String) : Option (String × String) :=
  match value.lookup key with
  | some (some v) =>
      if force || decide (getPropertyValueIfExists st devId vectorId key ≠ some v)
      then some (key, v)
      else none
  | _ => none

/-- The `todo` list computed by `setParam`: iterate the provided keys
in ascending order, appending the entry `setParamPick` keeps for each
key. -/
def setParamTodo (st : ConnState) (devId vectorId : String) (force : Bool)
    (value : List (String × Option String)) : List (String × String) :=
  (sortedKeys value).foldl
    (fun todo key => todo ++ (setParamPick st devId vectorId force value key).toList) []

/-- Models the issue-or-skip step (f)/(g) of `setParam` together with
its return value: when `todo` is empty nothing is sent (`Skipping
value already set`), otherwise `vec.setValues(todo)` runs; `todo` is
returned either way. The busy-waits around this step suspend but do
not alter the tree or the queue themselves. -/
def setParamRun (st : ConnState) (devId vectorId : String) (force : Bool)
    (value : List (String × Option String)) : ConnState × List (String × String) :=
  let todo := setParamTodo st devId vectorId force value
  if todo.isEmpty then (st, todo)
  else ((setValuesRun st devId vectorId todo).2, todo)

/-- How the busy-wait of `pulseParam` (after the `On` write) ends:
the predicate `state !== Busy` becomes true (the property stopped by
itself), the wait rejects with a thrown error, or the cancellation
token fires. -/
inductive BusyWaitEnd where
  | stopped
  | threw (e : String)
  | cancelled
deriving Repr, DecidableEq

/-- Final disposition of a `pulseParam` call. -/
inductive PulseResult where
  | anomaly (e : String)
  | error (e : String)
  | cancelled
deriving Repr, DecidableEq

/-- The `setValues` calls made by `pulseParam` after its initial
waits and busy check succeed, paired with its settlement. Source
flow: write `{propId: On}`, await not-Busy inside `try`; on natural
completion set `selfStopped = true` and throw the anomaly; the
`finally` block writes `{propId: Off}` (and waits again) only when
`!selfStopped`, i.e. only for a thrown error or a cancellation. -/
def pulseParamWrites (devId vectorId propId : String) (endKind : BusyWaitEnd) :
    List (String × String) × PulseResult :=
  let onW : String × String := (propId, "On")
  let offW : String × String := (propId, "Off")
  match endKind with
  | .stopped =>
      ([onW], .anomaly ("Property stopped " ++ devId ++ "." ++ vectorId ++ "." ++ propId))
  | .threw e => ([onW, offW], .error e)
  | .cancelled => ([onW, offW], .cancelled)

/-! Notification uid generator (`IndiManager.nextMessageUid`). -/

/-- Persistent generator state: `lastMessageStamp` and
`lastMessageSerial` (always set together in the source). -/
structure UidState where
  lastStamp : Option Nat
  lastSerial : Option Nat
deriving Repr, DecidableEq

/-- Lowercase hexadecimal rendering, as `Number.prototype.toString(16)`
produces for the non-negative serial counter. -/
def hexStr (n : Nat) : String := String.mk (Nat.toDigits 16 n)

/-- The `Z`-padding computed by the source: one `Z` per extra digit
of the serial string (`for i = 1; i < serialStr.length; i++`). -/
def zPad (serialStr : String) : String :=
  String.mk (List.replicate (serialStr.length - 1) 'Z')

/-- Models one `nextMessageUid()` call at wall-clock `nowIn`
milliseconds: clamp `now` so the stamp never goes backward, continue
the serial when the stamp repeats, reset it when the stamp advances.
Returns the new state and the uid split as (stamp, suffix): the full
uid string is `toISOString(stamp) ++ ":" ++ suffix`. -/
def nextMessageUid (st : UidState) (nowIn : Nat) : UidState × (Nat × String) :=
  let now := match st.lastStamp with
             | some last => if last > nowIn then last else nowIn
             | none => nowIn
  let serial := match st.lastStamp with
                | some last =>
                    if last = now then st.lastSerial.getD 0 + 1 else 0
                | none => 0
  let serialStr := hexStr serial
  (⟨some now, some serial⟩, (now, zPad serialStr ++ serialStr))

/-- The full uid for a given ISO-8601 renderer of the stamp. -/
def uidString (iso : Nat → String) (u : Nat × String) : String :=
  iso u.1 ++ ":" ++ u.2

/-- Runs `n` successive `nextMessageUid()` calls, all at wall-clock
time `nowIn`, returning the uids in call order. -/
def uidRun (st : UidState) (nowIn : Nat) : Nat → List (Nat × String)
  | 0 => []
  | n + 1 =>
      let (st', u) := nextMessageUid st nowIn
      u :: uidRun st' nowIn n

/-! Concrete example data used by witnesses and counterexamples. -/

/-- Example inbound traffic: a `defSwitchVector CONNECTION` for device
`CCD` followed by a `setSwitchVector` that flips `CONNECT` on (and
names one unknown child, which the reducer skips). -/
def msEx : List InMessage :=
  [ .defVector "Switch" "CCD" "CONNECTION" "Idle" none none none
      [⟨"CONNECT", none, "Off"⟩, ⟨"DISCONNECT", none, "On"⟩],
    .setVector "Switch" "CCD" "CONNECTION" "Ok" none none none
      (some [("CONNECT", some "On"), ("BOGUS", some "X")]) ]

/-- The connection state after processing `msEx`. -/
def stEx : ConnState := processMsgs msEx

/-- The `CONNECTION` vector of `stEx`, spelled out. -/
def vdEx : VectorDef :=
  { vtype := "Switch", state := "Ok", timeoutAttr := some "0",
    timestampAttr := none, text := none, rev := 2,
    childs := [("CONNECT", ⟨"CONNECT", none, "On"⟩),
               ("DISCONNECT", ⟨"DISCONNECT", none, "On"⟩)],
    childNames := ["CONNECT", "DISCONNECT"] }

/-- A realistic pending-wait predicate: waiting for an exposure
counter to reach zero (false on the post-close state). -/
def predEx : ConnState → Bool := fun s =>
  decide (getPropertyValueIfExists s "CCD" "CCD_EXPOSURE" "CCD_EXPOSURE_VALUE" = some "0")

/-- Listener behaviour where listener 1 removes listener 0 during its
own invocation and listener 0 does nothing. -/
def actEx : Nat → List Nat := fun i => if i = 1 then [0] else []

/-- The child names carried by the most recent `def*Vector` message
for a given device and vector in a message sequence (`none` when no
definition for that vector occurs). -/
def latestDefNames (ms : List InMessage) (d n : String) : Option (List String) :=
  ms.foldl (fun acc m =>
    match m with
    | .defVector _ d' n' _ _ _ _ cs =>
        if d' = d ∧ n' = n then some (cs.map (·.name)) else acc
    | _ => acc) none

/-- Well-formedness of the device tree: no duplicate keys at either
level (JavaScript objects cannot hold duplicate keys). -/
def TreeWF (t : DeviceTree) : Prop :=
  (keysOf t).Nodup ∧ ∀ d dm, t.lookup d = some dm → (keysOf dm).Nodup

/-- The C4 invariant relative to the processed history: every vector
present in the tree draws its child keys from the child names of the
most recent definition message for it. -/
def ChildKeysOk (ms : List InMessage) (t : DeviceTree) : Prop :=
  ∀ d n vd, (t.lookup d).bind (fun dm => dm.lookup n) = some vd →
    ∃ names, latestDefNames ms d n = some names ∧ ∀ k ∈ keysOf vd.childs, k ∈ names

end Indi

namespace Indi

/-! Association-list lemmas about `setKey`, `eraseKey` and
`List.lookup`. -/

theorem lookup_nil {α : Type} (k : String) : ([] : List (String × α)).lookup k = none := rfl

theorem lookup_cons_self {α : Type} (a : String) (b : α) (m : List (String × α)) :
    ((a, b) :: m).lookup a = some b := by
  simp [List.lookup]

theorem lookup_cons_ne {α : Type} (a k : String) (b : α) (m : List (String × α))
    (h : k ≠ a) : ((a, b) :: m).lookup k = m.lookup k := by
  rw [List.lookup, show (k == a) = false by simp [h]]

theorem keysOf_nil {α : Type} : keysOf ([] : List (String × α)) = [] := rfl

theorem keysOf_cons {α : Type} (p : String × α) (m : List (String × α)) :
    keysOf (p :: m) = p.1 :: keysOf m := rfl

theorem mem_keysOf_iff {α : Type} (m : List (String × α)) (x : String) :
    x ∈ keysOf m ↔ ∃ v, (x, v) ∈ m := by
  constructor
  · intro h
    obtain ⟨⟨a, b⟩, hm, he⟩ := List.mem_map.mp h
    simp only at he
    subst he
    exact ⟨b, hm⟩
  · rintro ⟨v, hv⟩
    exact List.mem_map.mpr ⟨(x, v), hv, rfl⟩

theorem lookup_eq_none_of_not_mem {α : Type} (m : List (String × α)) (k : String)
    (h : k ∉ keysOf m) : m.lookup k = none := by
  induction m with
  | nil => rw [lookup_nil]
  | cons p rest ih =>
    obtain ⟨a, b⟩ := p
    rw [keysOf_cons] at h
    simp only [List.mem_cons, not_or] at h
    rw [lookup_cons_ne a k b rest h.1]
    exact ih h.2

theorem lookup_setKey_self {α : Type} (m : List (String × α)) (k : String) (v : α) :
    (setKey m k v).lookup k = some v := by
  induction m with
  | nil => simp [setKey, lookup_cons_self]
  | cons p rest ih =>
    obtain ⟨a, b⟩ := p
    by_cases h : a = k
    · simp [setKey, h, lookup_cons_self]
    · rw [setKey, if_neg h, lookup_cons_ne a k b _ (fun hc => h hc.symm)]
      exact ih

theorem lookup_setKey_ne {α : Type} (m : List (String × α)) (k k' : String) (v : α)
    (h : k' ≠ k) : (setKey m k v).lookup k' = m.lookup k' := by
  induction m with
  | nil =>
    rw [setKey]
    rw [lookup_cons_ne k k' v [] h]
  | cons p rest ih =>
    obtain ⟨a, b⟩ := p
    by_cases ha : a = k
    · subst ha
      rw [setKey, if_pos rfl, lookup_cons_ne a k' v rest h, lookup_cons_ne a k' b rest h]
    · rw [setKey, if_neg ha]
      by_cases hk' : k' = a
      · subst hk'
        rw [lookup_cons_self, lookup_cons_self]
      · rw [lookup_cons_ne a k' b _ hk', lookup_cons_ne a k' b _ hk']
        exact ih

theorem mem_keysOf_setKey {α : Type} (m : List (String × α)) (k x : String) (v : α)
    (h : x ∈ keysOf (setKey m k v)) : x ∈ keysOf m ∨ x = k := by
  induction m with
  | nil =>
    rw [setKey, keysOf_cons, keysOf_nil] at h
    right
    simpa using h
  | cons p rest ih =>
    obtain ⟨a, b⟩ := p
    by_cases ha : a = k
    · subst ha
      rw [setKey, if_pos rfl, keysOf_cons] at h
      rw [keysOf_cons]
      rcases List.mem_cons.mp h with h' | h'
      · right; exact h'
      · left; exact List.mem_cons_of_mem _ h'
    · rw [setKey, if_neg ha, keysOf_cons] at h
      rw [keysOf_cons]
      rcases List.mem_cons.mp h with h' | h'
      · left
        rw [h']
        exact List.mem_cons_self _ _
      · rcases ih h' with h'' | h''
        · left; exact List.mem_cons_of_mem _ h''
        · right; exact h''

theorem nodup_keysOf_setKey {α : Type} (m : List (String × α)) (k : String) (v : α)
    (h : (keysOf m).Nodup) : (keysOf (setKey m k v)).Nodup := by
  induction m with
  | nil =>
    rw [setKey, keysOf_cons, keysOf_nil]
    simp
  | cons p rest ih =>
    obtain ⟨a, b⟩ := p
    rw [keysOf_cons, List.nodup_cons] at h
    by_cases ha : a = k
    · subst ha
      rw [setKey, if_pos rfl, keysOf_cons]
      exact List.nodup_cons.mpr h
    · rw [setKey, if_neg ha, keysOf_cons, List.nodup_cons]
      refine ⟨fun hmem => ?_, ih h.2⟩
      rcases mem_keysOf_setKey rest k a v hmem with h' | h'
      · exact h.1 h'
      · exact ha h'

theorem keysOf_setKey_of_lookup_some {α : Type} (m : List (String × α)) (k : String)
    (v w : α) (h : m.lookup k = some w) : keysOf (setKey m k v) = keysOf m := by
  induction m with
  | nil =>
    rw [lookup_nil] at h
    exact absurd h (by simp)
  | cons p rest ih =>
    obtain ⟨a, b⟩ := p
    by_cases ha : a = k
    · subst ha
      rw [setKey, if_pos rfl, keysOf_cons, keysOf_cons]
    · rw [lookup_cons_ne a k b rest (fun hc => ha hc.symm)] at h
      rw [setKey, if_neg ha, keysOf_cons, keysOf_cons, ih h]

theorem eraseKey_sublist {α : Type} (m : List (String × α)) (k : String) :
    (eraseKey m k).Sublist m := by
  induction m with
  | nil => simp [eraseKey]
  | cons p rest ih =>
    obtain ⟨a, b⟩ := p
    by_cases ha : a = k
    · rw [eraseKey, if_pos ha]
      exact List.sublist_cons_self _ _
    · rw [eraseKey, if_neg ha]
      exact List.Sublist.cons₂ _ ih

theorem nodup_keysOf_eraseKey {α : Type} (m : List (String × α)) (k : String)
    (h : (keysOf m).Nodup) : (keysOf (eraseKey m k)).Nodup := by
  have hsub : (keysOf (eraseKey m k)).Sublist (keysOf m) :=
    List.Sublist.map Prod.fst (eraseKey_sublist m k)
  exact hsub.nodup h

theorem lookup_eraseKey_ne {α : Type} (m : List (String × α)) (k k' : String)
    (h : k' ≠ k) : (eraseKey m k).lookup k' = m.lookup k' := by
  induction m with
  | nil => rw [eraseKey]
  | cons p rest ih =>
    obtain ⟨a, b⟩ := p
    by_cases ha : a = k
    · subst ha
      rw [eraseKey, if_pos rfl, lookup_cons_ne a k' b rest h]
    · rw [eraseKey, if_neg ha]
      by_cases hk' : k' = a
      · subst hk'
        rw [lookup_cons_self, lookup_cons_self]
      · rw [lookup_cons_ne a k' b _ hk', lookup_cons_ne a k' b _ hk']
        exact ih

theorem lookup_eraseKey_self {α : Type} (m : List (String × α)) (k : String)
    (h : (keysOf m).Nodup) : (eraseKey m k).lookup k = none := by
  induction m with
  | nil => rw [eraseKey, lookup_nil]
  | cons p rest ih =>
    obtain ⟨a, b⟩ := p
    rw [keysOf_cons, List.nodup_cons] at h
    by_cases ha : a = k
    · subst ha
      rw [eraseKey, if_pos rfl]
      exact lookup_eq_none_of_not_mem rest a h.1
    · rw [eraseKey, if_neg ha, lookup_cons_ne a k b _ (fun hc => ha hc.symm)]
      exact ih h.2

theorem lookup_eraseKey_some {α : Type} (m : List (String × α)) (k k' : String)
    (v : α) (hnd : (keysOf m).Nodup) (h : (eraseKey m k).lookup k' = some v) :
    m.lookup k' = some v := by
  by_cases hk : k' = k
  · subst hk
    rw [lookup_eraseKey_self m k' hnd] at h
    exact absurd h (by simp)
  · rw [lookup_eraseKey_ne m k k' hk] at h
    exact h

theorem mem_of_lookup_some {α : Type} (m : List (String × α)) (k : String) (v : α)
    (h : m.lookup k = some v) : (k, v) ∈ m := by
  induction m with
  | nil =>
    rw [lookup_nil] at h
    exact absurd h (by simp)
  | cons p rest ih =>
    obtain ⟨a, b⟩ := p
    by_cases hk : k = a
    · subst hk
      rw [lookup_cons_self] at h
      injection h with h
      subst h
      exact List.mem_cons_self _ _
    · rw [lookup_cons_ne a k b rest hk] at h
      exact List.mem_cons_of_mem _ (ih h)

theorem lookup_of_mem_nodup {α : Type} (m : List (String × α)) (k : String) (v : α)
    (hnd : (keysOf m).Nodup) (h : (k, v) ∈ m) : m.lookup k = some v := by
  induction m with
  | nil => simp at h
  | cons p rest ih =>
    obtain ⟨a, b⟩ := p
    rw [keysOf_cons, List.nodup_cons] at hnd
    rcases List.mem_cons.mp h with h' | h'
    · injection h' with h1 h2
      subst h1
      subst h2
      rw [lookup_cons_self]
    · have hk : k ≠ a := by
        intro hk
        subst hk
        exact hnd.1 ((mem_keysOf_iff rest k).mpr ⟨v, h'⟩)
      rw [lookup_cons_ne a k b rest hk]
      exact ih hnd.2 h'

/-! Generic facts about the reducer and the event step. -/

theorem flushQueue_rev (st : ConnState) : (flushQueue st).rev = st.rev := by
  unfold flushQueue
  split <;> rfl

theorem onMessage_rev (st : ConnState) (m : InMessage) :
    ((onMessage st m).1).rev = st.rev + 1 := by
  cases m <;> simp only [onMessage] <;> (repeat' split) <;> rfl

theorem stepEvent_rev (st : ConnState) (e : ConnEvent) :
    (stepEvent st e).rev = st.rev + 1 := by
  cases e with
  | connectEv =>
    show (flushQueue { st with connected := true }).rev + 1 = st.rev + 1
    rw [flushQueue_rev]
  | closeEv => rfl
  | msgEv m => exact onMessage_rev st m

/-- C5: the global revision counter is strictly increasing over the
process lifetime — every connection event (successful connect, socket
close, every message handed to the reducer, hence in particular every
applied definition, update or deletion) increments `globalRevisionId`
by exactly one, and a whole event history of length `n` raises it by
exactly `n`. -/
theorem C5_revision_strictly_increasing :
    (∀ (st : ConnState) (e : ConnEvent), (stepEvent st e).rev = st.rev + 1) ∧
    (∀ (st : ConnState) (evs : List ConnEvent),
        (evs.foldl stepEvent st).rev = st.rev + evs.length) := by
  refine ⟨stepEvent_rev, ?_⟩
  intro st evs
  induction evs generalizing st with
  | nil => rfl
  | cons e rest ih =>
    rw [List.foldl_cons, ih, stepEvent_rev]
    simp only [List.length_cons]
    omega

/-- C8: a `set*Vector` message whose device or vector is not in the
tree is logged and ignored: `onMessage` (a total function, so no
error escapes to any caller) returns the state with only the revision
bumped — the device tree is unchanged — and does not trigger a
listener dispatch. -/
theorem C8_update_unknown_target_ignored (st : ConnState) (vt d n s : String)
    (ta tsa txt : Option String) (ups : Option (List (String × Option String)))
    (h : (st.tree.lookup d).bind (fun dm => dm.lookup n) = none) :
    onMessage st (.setVector vt d n s ta tsa txt ups) =
      ({ st with rev := st.rev + 1 }, false) := by
  simp only [onMessage]
  cases hd : st.tree.lookup d with
  | none => rfl
  | some dmap =>
    rw [hd] at h
    simp only [Option.some_bind] at h
    dsimp only
    rw [h]

theorem C8_witness :
    onMessage initConn (.setVector "Switch" "CCD" "CONNECTION" "Ok" none none none
        (some [("CONNECT", some "On")])) =
      ({ initConn with rev := 1 }, false) :=
  C8_update_unknown_target_ignored initConn "Switch" "CCD" "CONNECTION" "Ok"
    none none none (some [("CONNECT", some "On")]) (by rfl)

/-- C9: `onMessage` bumps the revision exactly once for every decoded
message (broadcast notes and unknown-target updates and deletions
included), but only messages that reach the end of `onMessage`
trigger a listener dispatch pass: notes, updates about unknown
devices or vectors, and deletions of unknown targets return before
the dispatch, while definitions always dispatch. -/
theorem C9_revision_vs_dispatch :
    (∀ (st : ConnState) (m : InMessage), ((onMessage st m).1).rev = st.rev + 1) ∧
    (∀ (st : ConnState) (d : String) (t : Option String),
        (onMessage st (.note d t)).2 = false) ∧
    (∀ (st : ConnState) (vt d n s : String) (ta tsa txt : Option String)
        (ups : Option (List (String × Option String))),
        (st.tree.lookup d).bind (fun dm => dm.lookup n) = none →
        (onMessage st (.setVector vt d n s ta tsa txt ups)).2 = false) ∧
    (∀ (st : ConnState) (d n : String),
        (st.tree.lookup d).bind (fun dm => dm.lookup n) = none →
        (onMessage st (.delProperty d (some n))).2 = false) ∧
    (∀ (st : ConnState) (d : String), st.tree.lookup d = none →
        (onMessage st (.delProperty d none)).2 = false) ∧
    (∀ (st : ConnState) (vt d n s : String) (ta tsa txt : Option String)
        (cs : List DefChild),
        (onMessage st (.defVector vt d n s ta tsa txt cs)).2 = true) := by
  refine ⟨onMessage_rev, fun st d t => rfl, ?_, ?_, ?_, fun st vt d n s ta tsa txt cs => rfl⟩
  · intro st vt d n s ta tsa txt ups h
    simp only [onMessage]
    cases hd : st.tree.lookup d with
    | none => rfl
    | some dmap =>
      rw [hd] at h
      simp only [Option.some_bind] at h
      dsimp only
      rw [h]
  · intro st d n h
    simp only [onMessage]
    cases hd : st.tree.lookup d with
    | none => rfl
    | some dmap =>
      rw [hd] at h
      simp only [Option.some_bind] at h
      dsimp only
      rw [h]
  · intro st d h
    simp only [onMessage]
    rw [h]

theorem C9_witness :
    (onMessage initConn (.setVector "Switch" "CCD" "CONNECTION" "Ok" none none none
        (some [("CONNECT", some "On")]))).2 = false ∧
    (onMessage stEx (.delProperty "CCD" (some "NOPE"))).2 = false ∧
    (onMessage stEx (.delProperty "OTHER" none)).2 = false := by
  refine ⟨?_, ?_, ?_⟩
  · exact C9_revision_vs_dispatch.2.2.1 initConn "Switch" "CCD" "CONNECTION" "Ok"
      none none none (some [("CONNECT", some "On")]) (by rfl)
  · exact C9_revision_vs_dispatch.2.2.2.1 stEx "CCD" "NOPE" (by decide)
  · exact C9_revision_vs_dispatch.2.2.2.2.1 stEx "OTHER" (by decide)

/-- C10: `Vector.setValues` on a vector (or device) absent from the
tree throws `Property not found` and has no effect: the lookup
precedes every mutation, so no vector is marked Busy and nothing is
queued. -/
theorem C10_setValues_absent_throws (st : ConnState) (dev vec : String)
    (aff : List (String × String)) (h : getVectorInTree st dev vec = none) :
    setValuesRun st dev vec aff =
      (some ("Property not found: " ++ dev ++ "/" ++ vec), st) := by
  unfold setValuesRun
  rw [h]

theorem C10_witness :
    setValuesRun stEx "FOCUSER" "ABS_FOCUS_POSITION" [("FOCUS_ABSOLUTE_POSITION", "100")] =
      (some "Property not found: FOCUSER/ABS_FOCUS_POSITION", stEx) :=
  C10_setValues_absent_throws stEx "FOCUSER" "ABS_FOCUS_POSITION"
    [("FOCUS_ABSOLUTE_POSITION", "100")] (by decide)

/-- C1 counterexample: when the busy-wait of `pulseParam` completes
naturally (the `property stopped` anomaly), `selfStopped` is set
before the throw and the `finally` block skips the `Off` write — the
writes after activation are exactly the single `On` write. -/
theorem C1_counterexample :
    (pulseParamWrites "Mount" "TELESCOPE_TIMED_GUIDE_NS" "TIMED_GUIDE_N" .stopped).1
        = [("TIMED_GUIDE_N", "On")] ∧
    ("TIMED_GUIDE_N", "Off") ∉
      (pulseParamWrites "Mount" "TELESCOPE_TIMED_GUIDE_NS" "TIMED_GUIDE_N" .stopped).1 := by
  refine ⟨rfl, ?_⟩
  decide

/-- C1 (amended): after `pulseParam` has set the property `On`, a
final `setValues` write of `Off` is issued exactly when the busy-wait
ended by a thrown error or by cancellation; on the natural-completion
anomaly (`property stopped`) no `Off` write is issued. When the `Off`
write happens it is the last write of the call. -/
theorem C1_pulse_off_amended (devId vecId propId : String) (e : BusyWaitEnd) :
    (((propId, "Off") ∈ (pulseParamWrites devId vecId propId e).1) ↔ e ≠ .stopped) ∧
    (e ≠ .stopped →
      ((pulseParamWrites devId vecId propId e).1).getLast? = some (propId, "Off")) := by
  cases e with
  | stopped =>
    constructor
    · simp [pulseParamWrites]
    · intro hne
      exact absurd rfl hne
  | threw msg =>
    constructor
    · simp [pulseParamWrites]
    · intro _
      rfl
  | cancelled =>
    constructor
    · simp [pulseParamWrites]
    · intro _
      rfl

theorem C1_pulse_off_amended_witness :
    (("TIMED_GUIDE_N", "Off") ∈
      (pulseParamWrites "Mount" "TELESCOPE_TIMED_GUIDE_NS" "TIMED_GUIDE_N" .cancelled).1) ∧
    ((pulseParamWrites "Mount" "TELESCOPE_TIMED_GUIDE_NS" "TIMED_GUIDE_N" .cancelled).1).getLast?
        = some ("TIMED_GUIDE_N", "Off") := by
  refine ⟨?_, ?_⟩
  · exact (C1_pulse_off_amended "Mount" "TELESCOPE_TIMED_GUIDE_NS" "TIMED_GUIDE_N"
      .cancelled).1.mpr (by decide)
  · exact (C1_pulse_off_amended "Mount" "TELESCOPE_TIMED_GUIDE_NS" "TIMED_GUIDE_N"
      .cancelled).2 (by decide)

/-- C2 counterexample: a wait that is already pending when the socket
closes does NOT settle with a `Disconnected` failure — its listener
merely re-evaluates the predicate (here a realistic exposure-finished
predicate, still false after the close), so the wait keeps waiting,
even though the connection is now dead. -/
theorem C2_counterexample :
    pendingWaitAfterClose stEx predEx = .stillWaiting ∧
    (stepEvent stEx .closeEv).dead = true ∧
    stEx.tree ≠ [] := by
  refine ⟨by decide, rfl, by decide⟩

/-- C2 (amended): the socket close handler marks the connection dead,
drops `connected`, clears the queue — but leaves the device tree
untouched; the tree is emptied by the manager listener
(`refreshStatus`) that the dispatch pass then invokes. A `wait`
started after death with `allowDisconnectedState` unset fails
immediately with the disconnection error, but a wait already pending
never settles with that error: its listener only re-evaluates the
predicate. -/
theorem C2_disconnect_amended :
    (∀ st : ConnState,
        (stepEvent st .closeEv).dead = true ∧
        (stepEvent st .closeEv).connected = false ∧
        (stepEvent st .closeEv).queue = [] ∧
        (stepEvent st .closeEv).tree = st.tree) ∧
    (∀ t : DeviceTree, refreshStatusRun true false t = ("connecting", [])) ∧
    (∀ (st : ConnState) (p : Bool),
        st.dead = true → waitStart st false p = .failDisconnected) ∧
    (∀ (st : ConnState) (pred : ConnState → Bool),
        pendingWaitAfterClose st pred ≠ .failed "Indi server disconnected") := by
  refine ⟨fun st => ⟨rfl, rfl, rfl, rfl⟩, fun t => rfl, ?_, ?_⟩
  · intro st p h
    simp [waitStart, h]
  · intro st pred
    cases hp : pred (stepEvent st .closeEv) <;>
      simp [pendingWaitAfterClose, waitListenerStep, hp]

theorem C2_disconnect_amended_witness :
    waitStart (stepEvent stEx .closeEv) false true = .failDisconnected ∧
    pendingWaitAfterClose stEx predEx ≠ .failed "Indi server disconnected" := by
  refine ⟨?_, C2_disconnect_amended.2.2.2 stEx predEx⟩
  exact C2_disconnect_amended.2.2.1 (stepEvent stEx .closeEv) true (by rfl)

/-- Lexicographic string comparison is invariant under a common
appended left part. -/
theorem strAppend_lt_strAppend (p a b : String) (h : a < b) : p ++ a < p ++ b := by
  rw [String.lt_iff_toList_lt] at h ⊢
  have ha : (p ++ a).toList = p.toList ++ a.toList := by
    simp [String.toList, String.data_append]
  have hb : (p ++ b).toList = p.toList ++ b.toList := by
    simp [String.toList, String.data_append]
  rw [ha, hb]
  induction p.toList with
  | nil => exact h
  | cons x xs ih => exact List.Lex.cons ih

/-- C7 (code bug): the 16th and 17th `nextMessageUid()` calls inside
one wall-clock millisecond (serial 15 then 16) produce the suffixes
`f` and `Z10`; since the padding character `Z` (0x5A) sorts BELOW the
lowercase hex digits `a`-`f` (0x61-0x66), the later uid is
lexicographically SMALLER than the earlier one, whatever the (shared)
ISO timestamp rendering is — contradicting the `Ensure lexicographical
order of serial` comment in the source. -/
theorem C7_uid_order_bug :
    (uidRun ⟨none, none⟩ 1000 16).getLast? = some (1000, "f") ∧
    (uidRun ⟨none, none⟩ 1000 17).getLast? = some (1000, "Z10") ∧
    (∀ iso : Nat → String, uidString iso (1000, "Z10") < uidString iso (1000, "f")) := by
  refine ⟨by decide, by decide, ?_⟩
  intro iso
  refine strAppend_lt_strAppend (iso 1000 ++ ":") "Z10" "f" ?_
  rw [String.lt_iff_toList_lt]
  decide

/-! C3: the `setParam` diff against current values. -/

theorem setParamRun_snd (st : ConnState) (devId vectorId : String) (force : Bool)
    (value : List (String × Option String)) :
    (setParamRun st devId vectorId force value).2 = setParamTodo st devId vectorId force value := by
  simp only [setParamRun]
  split <;> rfl

theorem foldl_toList_append {α β : Type} (f : α → Option β) (l : List α) :
    ∀ init : List β,
      l.foldl (fun acc x => acc ++ (f x).toList) init = init ++ l.filterMap f := by
  induction l with
  | nil => intro init; simp
  | cons x xs ih =>
    intro init
    rw [List.foldl_cons, ih, List.filterMap_cons]
    cases hf : f x <;> simp [Option.toList]

theorem setParamTodo_eq_filterMap (st : ConnState) (devId vectorId : String)
    (force : Bool) (value : List (String × Option String)) :
    setParamTodo st devId vectorId force value
      = (sortedKeys value).filterMap (setParamPick st devId vectorId force value) := by
  unfold setParamTodo
  rw [foldl_toList_append]
  rw [List.nil_append]

theorem setParamPick_fst (st : ConnState) (devId vectorId : String) (force : Bool)
    (value : List (String × Option String)) (key : String) (p : String × String)
    (h : setParamPick st devId vectorId force value key = some p) : p.1 = key := by
  unfold setParamPick at h
  cases hlk : value.lookup key with
  | none =>
    rw [hlk] at h
    exact absurd h (by simp)
  | some o =>
    cases o with
    | none =>
      rw [hlk] at h
      exact absurd h (by simp)
    | some v =>
      rw [hlk] at h
      dsimp only at h
      by_cases hc : (force || decide (getPropertyValueIfExists st devId vectorId key ≠ some v))
          = true
      · rw [if_pos hc] at h
        injection h with h
        rw [← h]
      · rw [if_neg hc] at h
        exact absurd h (by simp)

theorem strLeb_trans (a b c : String) (h1 : strLeb a b = true) (h2 : strLeb b c = true) :
    strLeb a c = true :=
  decide_eq_true (le_trans (of_decide_eq_true h1) (of_decide_eq_true h2))

theorem strLeb_total (a b : String) : (strLeb a b || strLeb b a) = true := by
  rcases le_total a b with h | h
  · rw [strLeb, decide_eq_true h, Bool.true_or]
  · rw [show strLeb b a = true from decide_eq_true h, Bool.or_true]

theorem setParamTodo_mem (st : ConnState) (devId vectorId : String)
    (value : List (String × Option String)) (hnd : (keysOf value).Nodup)
    (k v : String) :
    (k, v) ∈ setParamTodo st devId vectorId false value ↔
      ((k, some v) ∈ value ∧ getPropertyValueIfExists st devId vectorId k ≠ some v) := by
  rw [setParamTodo_eq_filterMap, List.mem_filterMap]
  constructor
  · rintro ⟨key, hkey, hpick⟩
    have hfst : k = key := by
      have := setParamPick_fst st devId vectorId false value key (k, v) hpick
      exact this
    subst hfst
    unfold setParamPick at hpick
    cases hlk : value.lookup k with
    | none =>
      rw [hlk] at hpick
      exact absurd hpick (by simp)
    | some o =>
      cases o with
      | none =>
        rw [hlk] at hpick
        exact absurd hpick (by simp)
      | some w =>
        rw [hlk] at hpick
        dsimp only at hpick
        by_cases hc : (false || decide (getPropertyValueIfExists st devId vectorId k ≠ some w))
            = true
        · rw [if_pos hc] at hpick
          injection hpick with hpick
          injection hpick with hp1 hp2
          rw [hp2] at hlk hc
          rw [Bool.false_or] at hc
          exact ⟨mem_of_lookup_some value k (some v) hlk, of_decide_eq_true hc⟩
        · rw [if_neg hc] at hpick
          exact absurd hpick (by simp)
  · rintro ⟨hmem, hne⟩
    refine ⟨k, ?_, ?_⟩
    · exact List.mem_mergeSort.mpr (List.mem_map.mpr ⟨(k, some v), hmem, rfl⟩)
    · unfold setParamPick
      rw [lookup_of_mem_nodup value k (some v) hnd hmem]
      dsimp only
      rw [if_pos]
      rw [Bool.false_or]
      exact decide_eq_true hne

theorem setParamTodo_sorted (st : ConnState) (devId vectorId : String) (force : Bool)
    (value : List (String × Option String)) :
    List.Pairwise (fun a b : String × String => a.1 ≤ b.1)
      (setParamTodo st devId vectorId force value) := by
  rw [setParamTodo_eq_filterMap, List.pairwise_filterMap]
  have hsorted : List.Pairwise (fun a b => strLeb a b = true) (sortedKeys value) :=
    List.sorted_mergeSort strLeb_trans strLeb_total (keysOf value)
  refine hsorted.imp ?_
  intro a b hab p hp q hq
  rw [setParamPick_fst st devId vectorId force value a p hp,
      setParamPick_fst st devId vectorId force value b q hq]
  exact of_decide_eq_true hab

theorem setParamTodo_empty (st : ConnState) (devId vectorId : String)
    (value : List (String × Option String))
    (h : ∀ k v, (k, some v) ∈ value → getPropertyValueIfExists st devId vectorId k = some v) :
    setParamTodo st devId vectorId false value = [] := by
  rw [setParamTodo_eq_filterMap, List.filterMap_eq_nil_iff]
  intro key hkey
  unfold setParamPick
  rcases hlk : value.lookup key with _ | (_ | w)
  · rfl
  · rfl
  · have hmem : (key, some w) ∈ value := mem_of_lookup_some value key (some w) hlk
    have := h key w hmem
    simp [this]

/-- C3: without `force`, `setParam` computes exactly the provided
entries (null and undefined values excluded) whose value differs from
the vector current property value, in ascending key order; when every
provided value equals the current one, nothing is sent and the empty
list is returned. -/
theorem C3_setParam_noop_diff (st : ConnState) (devId vectorId : String)
    (value : List (String × Option String)) (hnd : (keysOf value).Nodup) :
    (∀ k v : String,
      (k, v) ∈ (setParamRun st devId vectorId false value).2 ↔
        ((k, some v) ∈ value ∧ getPropertyValueIfExists st devId vectorId k ≠ some v)) ∧
    List.Pairwise (fun a b : String × String => a.1 ≤ b.1)
      ((setParamRun st devId vectorId false value).2) ∧
    ((∀ k v, (k, some v) ∈ value → getPropertyValueIfExists st devId vectorId k = some v) →
      setParamRun st devId vectorId false value = (st, [])) := by
  refine ⟨?_, ?_, ?_⟩
  · intro k v
    rw [setParamRun_snd]
    exact setParamTodo_mem st devId vectorId value hnd k v
  · rw [setParamRun_snd]
    exact setParamTodo_sorted st devId vectorId false value
  · intro h
    have htodo := setParamTodo_empty st devId vectorId value h
    unfold setParamRun
    rw [htodo]
    rfl

theorem C3_setParam_noop_diff_witness :
    setParamRun stEx "CCD" "CONNECTION" false [("CONNECT", some "On")] = (stEx, []) := by
  refine (C3_setParam_noop_diff stEx "CCD" "CONNECTION"
      [("CONNECT", some "On")] (by decide)).2.2 ?_
  intro k v hm
  have he := List.mem_singleton.mp hm
  injection he with h1 h2
  subst h1
  injection h2 with h2
  subst h2
  decide

/-! C6: listener dispatch with mid-pass removal. -/

theorem removeFirst_sublist (l : List Nat) (x : Nat) : (removeFirst l x).Sublist l := by
  induction l with
  | nil => simp [removeFirst]
  | cons z rest ih =>
    by_cases hz : z = x
    · rw [removeFirst, if_pos hz]
      exact List.sublist_cons_self z rest
    · rw [removeFirst, if_neg hz]
      exact List.Sublist.cons₂ z ih

theorem mem_of_not_mem_removeFirst (l : List Nat) (x y : Nat)
    (hx : x ∈ l) (hnot : x ∉ removeFirst l y) : x = y := by
  induction l with
  | nil => simp at hx
  | cons z rest ih =>
    by_cases hz : z = y
    · rw [removeFirst, if_pos hz] at hnot
      rcases List.mem_cons.mp hx with h | h
      · rw [h, hz]
      · exact absurd h hnot
    · rw [removeFirst, if_neg hz] at hnot
      rcases List.mem_cons.mp hx with h | h
      · exact absurd (List.mem_cons.mpr (Or.inl h)) hnot
      · exact ih h (fun hm => hnot (List.mem_cons_of_mem _ hm))

theorem foldl_removeListenerRun_checking_sublist (R : List Nat) :
    ∀ s : ListenerSys, ((R.foldl removeListenerRun s).checking).Sublist s.checking := by
  induction R with
  | nil => intro s; exact List.Sublist.refl _
  | cons r rest ih =>
    intro s
    rw [List.foldl_cons]
    exact (ih _).trans (removeFirst_sublist s.checking r)

theorem mem_foldl_remove_of_not (R : List Nat) (s : ListenerSys) (x : Nat)
    (hx : x ∈ s.checking) (hnot : x ∉ (R.foldl removeListenerRun s).checking) : x ∈ R := by
  induction R generalizing s with
  | nil => exact absurd hx hnot
  | cons r rest ih =>
    rw [List.foldl_cons] at hnot
    by_cases hm : x ∈ (removeListenerRun s r).checking
    · exact List.mem_cons_of_mem _ (ih _ hm hnot)
    · exact List.mem_cons.mpr (Or.inl (mem_of_not_mem_removeFirst s.checking x r hx hm))

theorem checking_decomp (s : ListenerSys) (todo : Nat)
    (hl : s.checking.getLast? = some todo) :
    s.checking.dropLast ++ [todo] = s.checking ∧ s.checking ≠ [] := by
  have hne : s.checking ≠ [] := by
    intro he
    rw [he] at hl
    exact absurd hl (by simp)
  refine ⟨?_, hne⟩
  rw [List.getLast?_eq_getLast _ hne] at hl
  injection hl with hl
  rw [← hl]
  exact List.dropLast_append_getLast hne

theorem runPassAux_subset (act : Nat → List Nat) :
    ∀ (fuel : Nat) (s : ListenerSys) (x : Nat), x ∈ runPassAux act fuel s → x ∈ s.checking := by
  intro fuel
  induction fuel with
  | zero =>
    intro s x hx
    simp [runPassAux] at hx
  | succ n ih =>
    intro s x hx
    cases hl : s.checking.getLast? with
    | none =>
      simp only [runPassAux, hl] at hx
      exact absurd hx (List.not_mem_nil x)
    | some todo =>
      simp only [runPassAux, hl] at hx
      obtain ⟨hdecomp, hne⟩ := checking_decomp s todo hl
      rcases List.mem_cons.mp hx with h | h
      · rw [h, ← hdecomp]
        exact List.mem_append.mpr (Or.inr (List.mem_singleton.mpr rfl))
      · have h2 := ih _ x h
        have hsub : (((act todo).foldl removeListenerRun
            { s with checking := s.checking.dropLast }).checking).Sublist s.checking :=
          (foldl_removeListenerRun_checking_sublist (act todo) _).trans
            (List.dropLast_sublist s.checking)
        exact hsub.subset h2

theorem runPassAux_nodup (act : Nat → List Nat) :
    ∀ (fuel : Nat) (s : ListenerSys), s.checking.Nodup → (runPassAux act fuel s).Nodup := by
  intro fuel
  induction fuel with
  | zero =>
    intro s h
    simp [runPassAux]
  | succ n ih =>
    intro s h
    cases hl : s.checking.getLast? with
    | none => simp [runPassAux, hl]
    | some todo =>
      simp only [runPassAux, hl]
      obtain ⟨hdecomp, hne⟩ := checking_decomp s todo hl
      have hnodup_split : (s.checking.dropLast ++ [todo]).Nodup := by
        rw [hdecomp]
        exact h
      obtain ⟨hnodup_drop, _, hdisj⟩ := List.nodup_append.mp hnodup_split
      have htodo_not : todo ∉ s.checking.dropLast := by
        intro hmem
        exact hdisj hmem (List.mem_singleton.mpr rfl)
      have hsub2 : (((act todo).foldl removeListenerRun
          { s with checking := s.checking.dropLast }).checking).Sublist s.checking.dropLast :=
        foldl_removeListenerRun_checking_sublist (act todo) _
      refine List.nodup_cons.mpr ⟨?_, ?_⟩
      · intro hmem
        exact htodo_not (hsub2.subset (runPassAux_subset act n _ todo hmem))
      · exact ih _ (hsub2.nodup hnodup_drop)

theorem runPassAux_cover (act : Nat → List Nat) :
    ∀ (fuel : Nat) (s : ListenerSys), s.checking.length ≤ fuel →
      ∀ x ∈ s.checking, x ∈ runPassAux act fuel s ∨
        ∃ y ∈ runPassAux act fuel s, x ∈ act y := by
  intro fuel
  induction fuel with
  | zero =>
    intro s hlen x hx
    rw [List.length_eq_zero.mp (Nat.le_zero.mp hlen)] at hx
    simp at hx
  | succ n ih =>
    intro s hlen x hx
    cases hl : s.checking.getLast? with
    | none =>
      rw [List.getLast?_eq_none_iff.mp hl] at hx
      simp at hx
    | some todo =>
      simp only [runPassAux, hl]
      obtain ⟨hdecomp, hne⟩ := checking_decomp s todo hl
      by_cases hxt : x = todo
      · left
        exact List.mem_cons.mpr (Or.inl hxt)
      · have hxdrop : x ∈ s.checking.dropLast := by
          rw [← hdecomp] at hx
          rcases List.mem_append.mp hx with h | h
          · exact h
          · exact absurd (List.mem_singleton.mp h) hxt
        by_cases hx2 : x ∈ (((act todo).foldl removeListenerRun
            { s with checking := s.checking.dropLast }).checking)
        · have hlen2 : (((act todo).foldl removeListenerRun
              { s with checking := s.checking.dropLast }).checking).length ≤ n := by
            have h1 := (foldl_removeListenerRun_checking_sublist (act todo)
              { s with checking := s.checking.dropLast }).length_le
            have h2 : s.checking.dropLast.length = s.checking.length - 1 :=
              List.length_dropLast s.checking
            have h3 : s.checking.length ≠ 0 := by
              intro h0
              exact hne (List.length_eq_zero.mp h0)
            simp only at h1
            omega
          rcases ih _ hlen2 x hx2 with h | ⟨y, hy, hxy⟩
          · left
            exact List.mem_cons_of_mem _ h
          · right
            exact ⟨y, List.mem_cons_of_mem _ hy, hxy⟩
        · right
          refine ⟨todo, List.mem_cons_self _ _, ?_⟩
          exact mem_foldl_remove_of_not (act todo) _ x hxdrop hx2

/-- C6 counterexample: with listeners `[0, 1]` (dispatch runs from
the snapshot end, so listener 1 first) and listener 1 removing
listener 0, the pass invokes only listener 1 — listener 0, although
registered at the start of the pass, is invoked zero times, because
`removeListener` also splices the target out of the in-flight
`checkingListeners` work list. -/
theorem C6_counterexample :
    checkListenersRun actEx [0, 1] = [1] ∧
    (0 ∈ ([0, 1] : List Nat)) ∧
    List.count 0 (checkListenersRun actEx [0, 1]) ≠ 1 := by
  refine ⟨rfl, by decide, by decide⟩

/-- C6 (amended): within one dispatch pass every invoked listener
comes from the start-of-pass snapshot and (for a duplicate-free
registry) is invoked at most once; a listener of the snapshot that is
not invoked was necessarily removed by a listener invoked earlier in
the same pass. Self-removal causes no skip and no double invocation,
but removing another not-yet-dispatched listener does skip it. -/
theorem C6_dispatch_amended (act : Nat → List Nat) (l : List Nat) :
    (∀ x ∈ checkListenersRun act l, x ∈ l) ∧
    (l.Nodup → (checkListenersRun act l).Nodup) ∧
    (∀ x ∈ l, x ∈ checkListenersRun act l ∨ ∃ y ∈ checkListenersRun act l, x ∈ act y) := by
  refine ⟨?_, ?_, ?_⟩
  · intro x hx
    exact runPassAux_subset act l.length ⟨l, l⟩ x hx
  · intro h
    exact runPassAux_nodup act l.length ⟨l, l⟩ h
  · intro x hx
    exact runPassAux_cover act l.length ⟨l, l⟩ (le_refl _) x hx

theorem C6_dispatch_amended_witness :
    (checkListenersRun actEx [0, 1]).Nodup ∧
    (0 ∈ checkListenersRun actEx [0, 1] ∨ ∃ y ∈ checkListenersRun actEx [0, 1], 0 ∈ actEx y) := by
  refine ⟨(C6_dispatch_amended actEx [0, 1]).2.1 (by decide),
          (C6_dispatch_amended actEx [0, 1]).2.2 0 (by decide)⟩

/-! C4: child keys never escape the latest definition. -/

theorem keysOf_foldl_setKey_subset (cs : List DefChild) :
    ∀ (m0 : List (String × IndiProperty)) (x : String),
      x ∈ keysOf (cs.foldl (fun m c => setKey m c.name ⟨c.name, c.label, c.value⟩) m0) →
      x ∈ keysOf m0 ∨ x ∈ cs.map (·.name) := by
  induction cs with
  | nil =>
    intro m0 x hx
    exact Or.inl hx
  | cons c rest ih =>
    intro m0 x hx
    rw [List.foldl_cons] at hx
    rcases ih _ x hx with h | h
    · rcases mem_keysOf_setKey m0 c.name x _ h with h' | h'
      · exact Or.inl h'
      · right
        rw [List.map_cons]
        exact List.mem_cons.mpr (Or.inl h')
    · right
      rw [List.map_cons]
      exact List.mem_cons_of_mem _ h

theorem keysOf_buildChilds (cs : List DefChild) (x : String)
    (hx : x ∈ keysOf (buildChilds cs)) : x ∈ cs.map (·.name) := by
  rcases keysOf_foldl_setKey_subset cs [] x hx with h | h
  · rw [keysOf_nil] at h
    exact absurd h (List.not_mem_nil x)
  · exact h

theorem applyUpdates_keys : ∀ (ups : List (String × Option String))
    (cs : List (String × IndiProperty)), keysOf (applyUpdates cs ups) = keysOf cs := by
  intro ups
  induction ups with
  | nil => intro cs; rfl
  | cons u rest ih =>
    intro cs
    have hstep : applyUpdates cs (u :: rest)
        = applyUpdates (match cs.lookup u.1 with
            | none => cs
            | some p => setKey cs u.1 { p with value := u.2.getD "" }) rest := rfl
    rw [hstep, ih]
    cases hlk : cs.lookup u.1 with
    | none => rfl
    | some p => exact keysOf_setKey_of_lookup_some cs u.1 _ p hlk

theorem treeWF_empty : TreeWF [] := by
  refine ⟨List.nodup_nil, ?_⟩
  intro d dm h
  rw [lookup_nil] at h
  exact absurd h (by simp)

theorem treeWF_setKey (t : DeviceTree) (d : String) (dm : DeviceVectors)
    (hwf : TreeWF t) (hdm : (keysOf dm).Nodup) : TreeWF (setKey t d dm) := by
  refine ⟨nodup_keysOf_setKey t d dm hwf.1, ?_⟩
  intro d' dm' h
  by_cases hd : d' = d
  · subst hd
    rw [lookup_setKey_self] at h
    injection h with h
    rw [← h]
    exact hdm
  · rw [lookup_setKey_ne t d d' dm hd] at h
    exact hwf.2 d' dm' h

theorem treeWF_eraseKey (t : DeviceTree) (d : String) (hwf : TreeWF t) :
    TreeWF (eraseKey t d) := by
  refine ⟨nodup_keysOf_eraseKey t d hwf.1, ?_⟩
  intro d' dm' h
  exact hwf.2 d' dm' (lookup_eraseKey_some t d d' dm' hwf.1 h)

theorem devEntry_nodup (t : DeviceTree) (d : String) (hwf : TreeWF t) :
    (keysOf (devEntry t d)).Nodup := by
  unfold devEntry
  cases h : t.lookup d with
  | none => exact List.nodup_nil
  | some dm => exact hwf.2 d dm h

theorem treeWF_onMessage (st : ConnState) (m : InMessage) (hwf : TreeWF st.tree) :
    TreeWF ((onMessage st m).1).tree := by
  cases m with
  | note dev txt => exact hwf
  | defVector vt dev nm s ta tsa txt cs =>
    exact treeWF_setKey _ _ _ hwf (nodup_keysOf_setKey _ _ _ (devEntry_nodup _ _ hwf))
  | delProperty dev nOpt =>
    cases hd : st.tree.lookup dev with
    | none =>
      have htree : ((onMessage st (.delProperty dev nOpt)).1).tree = st.tree := by
        simp only [onMessage, hd]
      rw [htree]
      exact hwf
    | some dmap =>
      cases nOpt with
      | none =>
        have htree : ((onMessage st (.delProperty dev none)).1).tree
            = eraseKey st.tree dev := by
          simp only [onMessage, hd]
        rw [htree]
        exact treeWF_eraseKey _ _ hwf
      | some nm =>
        cases hn : dmap.lookup nm with
        | none =>
          have htree : ((onMessage st (.delProperty dev (some nm))).1).tree = st.tree := by
            simp only [onMessage, hd, hn]
          rw [htree]
          exact hwf
        | some vdel =>
          have htree : ((onMessage st (.delProperty dev (some nm))).1).tree
              = setKey st.tree dev (eraseKey dmap nm) := by
            simp only [onMessage, hd, hn]
          rw [htree]
          exact treeWF_setKey _ _ _ hwf (nodup_keysOf_eraseKey _ _ (hwf.2 dev dmap hd))
  | setVector vt dev nm s ta tsa txt ups =>
    cases hd : st.tree.lookup dev with
    | none =>
      have htree : ((onMessage st (.setVector vt dev nm s ta tsa txt ups)).1).tree
          = st.tree := by
        simp only [onMessage, hd]
      rw [htree]
      exact hwf
    | some dmap =>
      cases hn : dmap.lookup nm with
      | none =>
        have htree : ((onMessage st (.setVector vt dev nm s ta tsa txt ups)).1).tree
            = st.tree := by
          simp only [onMessage, hd, hn]
        rw [htree]
        exact hwf
      | some vold =>
        have hdm : (keysOf dmap).Nodup := hwf.2 dev dmap hd
        cases ups with
        | none =>
          simp only [onMessage, hd, hn]
          exact treeWF_setKey _ _ _ hwf (nodup_keysOf_setKey _ _ _ hdm)
        | some ups2 =>
          simp only [onMessage, hd, hn]
          exact treeWF_setKey _ _ _ hwf (nodup_keysOf_setKey _ _ _ hdm)

theorem latestDefNames_append (ms : List InMessage) (m : InMessage) (d n : String) :
    latestDefNames (ms ++ [m]) d n
      = match m with
        | .defVector _ dv nv _ _ _ _ cs =>
            if dv = d ∧ nv = n then some (cs.map (·.name)) else latestDefNames ms d n
        | _ => latestDefNames ms d n := by
  unfold latestDefNames
  rw [List.foldl_append]
  cases m <;> rfl

theorem childKeysOk_onMessage (ms : List InMessage) (st : ConnState) (m : InMessage)
    (hwf : TreeWF st.tree) (hok : ChildKeysOk ms st.tree) :
    ChildKeysOk (ms ++ [m]) ((onMessage st m).1).tree := by
  intro d n vd hlook
  rw [latestDefNames_append]
  cases m with
  | note dev txt => exact hok d n vd hlook
  | defVector vt dev nm s ta tsa txt cs =>
    simp only [onMessage] at hlook
    dsimp only
    by_cases hd : d = dev
    · subst hd
      rw [lookup_setKey_self] at hlook
      simp only [Option.some_bind] at hlook
      by_cases hn : n = nm
      · subst hn
        rw [lookup_setKey_self] at hlook
        injection hlook with hlook
        rw [if_pos ⟨rfl, rfl⟩]
        refine ⟨cs.map (·.name), rfl, ?_⟩
        intro k hk
        rw [← hlook] at hk
        exact keysOf_buildChilds cs k hk
      · rw [lookup_setKey_ne _ nm n _ hn] at hlook
        rw [if_neg (fun hc => hn hc.2.symm)]
        cases hdv : st.tree.lookup d with
        | none =>
          rw [show devEntry st.tree d = [] by unfold devEntry; rw [hdv]; rfl] at hlook
          rw [lookup_nil] at hlook
          exact absurd hlook (by simp)
        | some dm0 =>
          refine hok d n vd ?_
          rw [hdv, Option.some_bind]
          rw [show devEntry st.tree d = dm0 by unfold devEntry; rw [hdv]; rfl] at hlook
          exact hlook
    · rw [lookup_setKey_ne st.tree dev d _ hd] at hlook
      rw [if_neg (fun hc => hd hc.1.symm)]
      exact hok d n vd hlook
  | delProperty dev nOpt =>
    cases hdv : st.tree.lookup dev with
    | none =>
      simp only [onMessage, hdv] at hlook
      exact hok d n vd hlook
    | some dmap =>
      cases nOpt with
      | none =>
        simp only [onMessage, hdv] at hlook
        refine hok d n vd ?_
        by_cases hd : d = dev
        · subst hd
          rw [lookup_eraseKey_self st.tree d hwf.1] at hlook
          exact absurd hlook (by simp)
        · rw [lookup_eraseKey_ne st.tree dev d hd] at hlook
          exact hlook
      | some nm =>
        cases hn : dmap.lookup nm with
        | none =>
          simp only [onMessage, hdv, hn] at hlook
          exact hok d n vd hlook
        | some vdel =>
          simp only [onMessage, hdv, hn] at hlook
          by_cases hd : d = dev
          · subst hd
            rw [lookup_setKey_self] at hlook
            simp only [Option.some_bind] at hlook
            refine hok d n vd ?_
            rw [hdv, Option.some_bind]
            exact lookup_eraseKey_some dmap nm n vd (hwf.2 d dmap hdv) hlook
          · rw [lookup_setKey_ne st.tree dev d _ hd] at hlook
            exact hok d n vd hlook
  | setVector vt dev nm s ta tsa txt ups =>
    cases hdv : st.tree.lookup dev with
    | none =>
      simp only [onMessage, hdv] at hlook
      exact hok d n vd hlook
    | some dmap =>
      cases hn : dmap.lookup nm with
      | none =>
        simp only [onMessage, hdv, hn] at hlook
        exact hok d n vd hlook
      | some vold =>
        have horig : (st.tree.lookup dev).bind (fun dm => dm.lookup nm) = some vold := by
          rw [hdv, Option.some_bind]
          exact hn
        cases ups with
        | none =>
          simp only [onMessage, hdv, hn] at hlook
          by_cases hd : d = dev
          · subst hd
            rw [lookup_setKey_self] at hlook
            simp only [Option.some_bind] at hlook
            by_cases hnn : n = nm
            · subst hnn
              rw [lookup_setKey_self] at hlook
              injection hlook with hlook
              obtain ⟨names, hnames, hsub⟩ := hok d n vold horig
              refine ⟨names, hnames, ?_⟩
              intro k hk
              rw [← hlook] at hk
              exact hsub k hk
            · rw [lookup_setKey_ne _ nm n _ hnn] at hlook
              refine hok d n vd ?_
              rw [hdv, Option.some_bind]
              exact hlook
          · rw [lookup_setKey_ne st.tree dev d _ hd] at hlook
            exact hok d n vd hlook
        | some ups2 =>
          simp only [onMessage, hdv, hn] at hlook
          by_cases hd : d = dev
          · subst hd
            rw [lookup_setKey_self] at hlook
            simp only [Option.some_bind] at hlook
            by_cases hnn : n = nm
            · subst hnn
              rw [lookup_setKey_self] at hlook
              injection hlook with hlook
              obtain ⟨names, hnames, hsub⟩ := hok d n vold horig
              refine ⟨names, hnames, ?_⟩
              intro k hk
              rw [← hlook] at hk
              rw [show keysOf (applyUpdates vold.childs ups2) = keysOf vold.childs from
                applyUpdates_keys ups2 vold.childs] at hk
              exact hsub k hk
            · rw [lookup_setKey_ne _ nm n _ hnn] at hlook
              refine hok d n vd ?_
              rw [hdv, Option.some_bind]
              exact hlook
          · rw [lookup_setKey_ne st.tree dev d _ hd] at hlook
            exact hok d n vd hlook

theorem processMsgs_invariant (ms : List InMessage) :
    TreeWF (processMsgs ms).tree ∧ ChildKeysOk ms (processMsgs ms).tree := by
  induction ms using List.reverseRecOn with
  | nil =>
    refine ⟨treeWF_empty, ?_⟩
    intro d n vd h
    rw [show (processMsgs []).tree = [] from rfl, lookup_nil] at h
    exact absurd h (by simp)
  | append_singleton ms m ih =>
    have hstep : processMsgs (ms ++ [m]) = (onMessage (processMsgs ms) m).1 := by
      unfold processMsgs
      rw [List.foldl_append]
      rfl
    rw [hstep]
    exact ⟨treeWF_onMessage _ m ih.1, childKeysOk_onMessage ms _ m ih.1 ih.2⟩

/-- C4: after applying any sequence of definition, update and
deletion messages from the empty tree, every vector present in the
tree has a children map whose key set is contained in the child names
of the most recent definition message for that device and vector —
updates naming unknown children never add keys, and a vector only
exists if some definition for it occurred. -/
theorem C4_children_subset_latest_def (ms : List InMessage) (d n : String) (vd : VectorDef)
    (h : ((processMsgs ms).tree.lookup d).bind (fun dm => dm.lookup n) = some vd) :
    ∃ names, latestDefNames ms d n = some names ∧ ∀ k ∈ keysOf vd.childs, k ∈ names :=
  (processMsgs_invariant ms).2 d n vd h

theorem C4_children_subset_latest_def_witness :
    ∃ names, latestDefNames msEx "CCD" "CONNECTION" = some names ∧
      ∀ k ∈ keysOf vdEx.childs, k ∈ names :=
  C4_children_subset_latest_def msEx "CCD" "CONNECTION" vdEx (by decide)

end Indi
